import Mathlib

/-!
# simple-crawler: verification of `simple_crawler.cpp`

A shallow embedding of the crawler of `src/src/simple_crawler.cpp` and the proofs of the
properties its specification states about it.

* `std::string` is `List Char`; `std::string::npos` is `none`.
* `std::unordered_set<std::string>` is a duplicate-free-by-insertion list: the program only
  inserts into it, tests membership and asks for its size, so membership is all that is observed.
* `std::queue<std::string>` is a list whose head is the front of the queue.
* The network (`cpr::Get`), the HTML parser (`gumbo_libxml_parse` and the two XPath queries) and
  the compiled regular expression (`std::regex_search`) are not part of the repository: a run is
  driven by the list of responses the network returns, each carrying the node sets the XPath
  queries return on its body, and by the predicate the compiled pattern denotes.
* What the program does to the outside is recorded in logs: the URLs requested, the documents
  parsed, the files written. Console output and the politeness sleep leave the crawl state
  untouched and are left out.
-/

namespace SimpleCrawler

/-- Byte strings of the program (`std::string`). -/
abbrev Str := List Char

/-- String sets of the program (`std::unordered_set<std::string>`). -/
abbrev StrSet := List Str

/-! ## The `std::string` operations the program uses -/

/-- Scan of `find`: `s` is what is left of the string, `i` the index of its first character. -/
def findAux (pat : Str) : Str → Nat → Option Nat
  | [], i => if pat.isPrefixOf [] then some i else none
  | c :: cs, i => if pat.isPrefixOf (c :: cs) then some i else findAux pat cs (i + 1)

/-- Lowest index at or after `pos` where `pat` occurs in `s` (`s.find(pat, pos)`);
`none` is `npos`. -/
def find (s pat : Str) (pos : Nat) : Option Nat :=
  if s.length < pos then none else findAux pat (s.drop pos) pos

/-- Highest index of `s` holding one of the characters of `chars`
(`s.find_last_of(chars)`); `none` is `npos`. -/
def find_last_of : Str → Str → Option Nat
  | [], _ => none
  | c :: cs, chars =>
    match find_last_of cs chars with
    | some i => some (i + 1)
    | none => if c ∈ chars then some 0 else none

/-- Substring `s.substr(pos, count)`, a `count` of `none` being `npos`. Every call of the
program has `pos ≤ s.size()`, where `substr` does not throw. -/
def substr (s : Str) (pos : Nat) (count : Option Nat) : Str :=
  match count with
  | none => s.drop pos
  | some n => (s.drop pos).take n

/-- Reading one line off a stream (`std::getline(input, line)`): the line read and what is left
of the stream, or `none` when the stream is exhausted and the read fails. -/
def getline (input : Str) : Option (Str × Str) :=
  match input with
  | [] => none
  | _ :: _ => some (input.takeWhile (fun c => c != '\n'), (input.dropWhile (fun c => c != '\n')).tail)

/-- The character `href[0]` of an empty string, the terminating NUL. -/
def nul : Char := Char.ofNat 0

/-! ## `block_urls` (lines 30-56) -/

/-- First loop of `block_urls` (lines 35-39): reads lines up to and including the first one
equal to `User-agent: *`; returns what is left of the stream. -/
def skip_loop : Nat → Str → Str
  | 0, input => input
  | fuel + 1, input =>
    match getline input with
    | none => input
    | some (line, rest) => if line = "User-agent: *".toList then rest else skip_loop fuel rest

/-- Second loop of `block_urls` (lines 42-55). -/
def disallow_loop (protocol domain : Str) : Nat → Str → StrSet → StrSet
  | 0, _, blocked => blocked
  | fuel + 1, input, blocked =>
    match getline input with
    | none => blocked
    | some (line, rest) =>
      if (find line "User-agent: ".toList 0).isSome ∧ line.getLast? ≠ some '*' then blocked
      else
        match find line "Disallow: ".toList 0 with
        | none => disallow_loop protocol domain fuel rest blocked
        | some pos =>
          let url := protocol ++ "://".toList ++ domain
            ++ substr line (pos + "Disallow: ".toList.length) none
          disallow_loop protocol domain fuel rest (blocked.insert url)

/-- The function `block_urls`: every pass of either loop consumes at least one character of the
stream, so `input.length + 1` passes exhaust it. -/
def block_urls (input protocol domain : Str) (blocked : StrSet) : StrSet :=
  disallow_loop protocol domain (input.length + 1) (skip_loop (input.length + 1) input) blocked

/-! ## The main loop (lines 112-223) -/

/-- What one `cpr::Get` returns, as far as the program looks at it, together with the node sets
of the two XPath queries on the parsed body. -/
structure Response where
  /-- HTTP status (`response.status_code`). -/
  status_code : Int
  /-- Header value `response.header["Content-Type"]`, empty when absent. -/
  content_type : Str
  /-- Body (`response.text`). -/
  text : Str
  /-- Contents of the nodes selected by the visible-text query, in document order. -/
  text_nodes : List Str
  /-- Contents of the nodes selected by `//a/@href`, in document order; `none` is a null
  content pointer. -/
  hrefs : List (Option Str)

/-- State of the crawl, with the logs of its effects. -/
structure Crawl where
  /-- Frontier (`to_visit`), front first. -/
  to_visit : List Str
  /-- Visited set (`visited`), pre-seeded with the robots exclusions. -/
  visited : StrSet
  /-- Every argument of `to_visit.push`, oldest first. -/
  pushed : List Str
  /-- Every URL the loop requested with `cpr::Get`, oldest first. -/
  fetched : List Str
  /-- Every document handed to `gumbo_libxml_parse`, oldest first. -/
  parsed : List Str
  /-- Every file written, as path and content, oldest first. -/
  files : List (Str × Str)

/-- Lines 187-197: making a reference absolute. -/
def resolve (protocol domain href : Str) : Str :=
  if href.getD 0 nul = '/' then
    if 1 < href.length ∧ href.getD 1 nul = '/' then
      protocol ++ ":".toList ++ href
    else
      protocol ++ "://".toList ++ domain ++ href
  else href

/-- Lines 187-199: the normalized form of a reference. -/
def normalize (protocol domain href : Str) : Str :=
  let href := resolve protocol domain href
  substr href 0 (find_last_of href "#/".toList)

/-- One pass of the link loop (lines 176-207). -/
def add_link (protocol domain : Str) (regex_search : Str → Bool) (st : Crawl)
    (href_attr : Option Str) : Crawl :=
  match href_attr with
  | none => st
  | some href =>
    if href.getD 0 nul = '#' then st
    else
      let href := normalize protocol domain href
      if regex_search href = true ∧ href ∉ st.visited then
        { st with
          visited := st.visited.insert href
          to_visit := st.to_visit ++ [href]
          pushed := st.pushed ++ [href] }
      else st

/-- Name of the output files of a page (lines 140-141); `npos + 1` wraps to `0`. -/
def filename (url : Str) : Str :=
  substr url (match find_last_of url "/".toList with
    | none => 0
    | some start_pos => start_pos + 1) none

/-- Body of the main loop after the pop (lines 121-222): `url` is the popped front and `st`
the state after the pop. -/
def loop_body (protocol domain : Str) (regex_search : Str → Bool) (save_html save_text : Bool)
    (response : Response) (url : Str) (st : Crawl) : Crawl :=
  let st := { st with fetched := st.fetched ++ [url] }
  if response.status_code ≠ 200 then st
  else if find response.content_type "text/html".toList 0 = none then st
  else
    let st := if save_html then
        { st with files := st.files
            ++ [("html/".toList ++ filename url ++ ".html".toList, response.text)] }
      else st
    let st := { st with parsed := st.parsed ++ [response.text] }
    let st := if save_text then
        { st with files := st.files
            ++ [("text/".toList ++ filename url ++ ".txt".toList,
                 (response.text_nodes.map (fun content => content ++ " ".toList)).flatten)] }
      else st
    response.hrefs.foldl (add_link protocol domain regex_search) st

/-- One iteration of the main loop (lines 116-223) on a non-empty frontier; an empty frontier
ends the loop and leaves the state as it is. -/
def iteration (protocol domain : Str) (regex_search : Str → Bool) (save_html save_text : Bool)
    (response : Response) (st : Crawl) : Crawl :=
  match st.to_visit with
  | [] => st
  | url :: queue =>
    loop_body protocol domain regex_search save_html save_text response url
      { st with to_visit := queue }

/-- The main loop (lines 116-223), run for as long as the frontier is non-empty and the
network answers: one response is consumed per iteration. -/
def main_loop (protocol domain : Str) (regex_search : Str → Bool) (save_html save_text : Bool) :
    List Response → Crawl → Crawl
  | [], st => st
  | response :: responses, st =>
    match st.to_visit with
    | [] => st
    | _ :: _ =>
      main_loop protocol domain regex_search save_html save_text responses
        (iteration protocol domain regex_search save_html save_text response st)

/-! ## `main` (lines 58-226) -/

/-- The values `main` reads from the configuration file; the three required keys are taken to
be present. -/
structure Config where
  /-- Key `seed-url`. -/
  seed_url : Str
  /-- Key `url-regex`, compiled: the predicate `std::regex_search(·, url_regex)`, or `none`
  when the pattern is rejected by the `std::regex` constructor. -/
  url_regex : Option (Str → Bool)
  /-- Key `sleep-time`. -/
  sleep_time : Int
  /-- Key `save-html`, `none` when absent. -/
  save_html : Option Bool
  /-- Key `save-text`, `none` when absent. -/
  save_text : Option Bool

/-- How a run stands when the responses supplied are used up. -/
inductive Exit where
  /-- Returned from `main` with this code. -/
  | code (n : Int)
  /-- Left `main` by the exception of the `std::regex` constructor. -/
  | regex_error
  /-- Still in the main loop, the frontier not empty. -/
  | running
  deriving DecidableEq, Repr

/-- Result of a run. -/
structure Outcome where
  /-- How the run ended. -/
  exit : Exit
  /-- Every URL requested with `cpr::Get`, robots.txt included, oldest first. -/
  gets : List Str
  /-- Crawl state reached. -/
  crawl : Crawl

/-- Crawl state before anything happened. -/
def Crawl.empty : Crawl := ⟨[], [], [], [], [], []⟩

/-- Lines 70-87: protocol and domain of the seed URL, `none` where `main` returns 0. -/
def seed_parts (seed_url : Str) : Option (Str × Str) :=
  match find seed_url "://".toList 0 with
  | none => none
  | some proto_pos =>
    let protocol := substr seed_url 0 (some proto_pos)
    let domain_start := proto_pos + 3
    match find seed_url "/".toList domain_start with
    | none => none
    | some domain_end =>
      some (protocol, substr seed_url domain_start (some (domain_end - domain_start)))

/-- The function `main`, from the parsed configuration on: `robots_text` is the body of the
answer to the robots.txt request and `responses` are the answers to the page requests. -/
def main (argc : Nat) (config : Config) (robots_text : Str) (responses : List Response) :
    Outcome :=
  if argc ≠ 2 then ⟨Exit.code 1, [], Crawl.empty⟩
  else
    match seed_parts config.seed_url with
    | none => ⟨Exit.code 0, [], Crawl.empty⟩
    | some (protocol, domain) =>
      let robots_url := protocol ++ "://".toList ++ domain ++ "/robots.txt".toList
      let visited := block_urls robots_text protocol domain []
      match config.url_regex with
      | none => ⟨Exit.regex_error, [robots_url], { Crawl.empty with visited := visited }⟩
      | some regex_search =>
        let save_html := config.save_html.getD false
        let save_text := config.save_text.getD false
        if (!save_html && !save_text) = true then
          ⟨Exit.code 1, [robots_url], { Crawl.empty with visited := visited }⟩
        else
          let st := main_loop protocol domain regex_search save_html save_text responses
            { Crawl.empty with
              to_visit := [config.seed_url]
              pushed := [config.seed_url]
              visited := visited.insert config.seed_url }
          ⟨if st.to_visit = [] then Exit.code 0 else Exit.running, robots_url :: st.fetched, st⟩


/-! ## The specification's definitions, for comparison with the code -/

/-- Spec §4.1, first three rules: a reference starting with `//` gets `protocol + ":"` in
front, one starting with `/` gets `protocol + "://" + domain`, any other is left as it is. -/
def resolve_spec (protocol domain reference : Str) : Str :=
  if "//".toList <+: reference then protocol ++ ":".toList ++ reference
  else if "/".toList <+: reference then protocol ++ "://".toList ++ domain ++ reference
  else reference

/-- Spec §4.1, last rule: what stands before the last `#` or `/`; all of it when there is
neither. -/
def truncate_spec (s : Str) : Str :=
  if ∃ c ∈ s, c = '#' ∨ c = '/' then
    ((s.reverse.dropWhile (fun c => c != '#' && c != '/')).drop 1).reverse
  else s

/-- Spec §4.1: `normalize(reference, protocol, domain)`. -/
def normalize_spec (protocol domain reference : Str) : Str :=
  truncate_spec (resolve_spec protocol domain reference)

/-- Spec §8, a reference "already in absolute, un-fragmented form": a scheme of letters, then
`://`, and no `#` anywhere. -/
def absolute_unfragmented (x : Str) : Prop :=
  ∃ scheme rest, scheme ≠ [] ∧ (∀ c ∈ scheme, c.isAlpha = true) ∧
    x = scheme ++ "://".toList ++ rest ∧ '#' ∉ x

/-- Lines of a document: the pieces between line feeds; the piece after the last line feed
counts when it is not empty. -/
def getlines : Str → List Str
  | [] => []
  | c :: cs =>
    if c = '\n' then [] :: getlines cs
    else
      match getlines cs with
      | [] => [[c]]
      | line :: lines => (c :: line) :: lines

/-- Text following the first occurrence of `pat` in a line, `none` when the line does not
contain `pat`. -/
def text_after (pat : Str) : Str → Option Str
  | [] => if pat = [] then some [] else none
  | c :: cs => if pat <+: c :: cs then some ((c :: cs).drop pat.length) else text_after pat cs

/-- Spec §4.2: the entries of a robots document, `stop` telling which lines end the wildcard
block. The lines after the first one equal to `User-agent: *`, up to the first stopping line,
each give `protocol://domain` followed by the text after `Disallow: ` when they contain it. -/
def block_entries (stop : Str → Bool) (protocol domain document : Str) : List Str :=
  let after := ((getlines document).dropWhile (fun line => line != "User-agent: *".toList)).drop 1
  let block := after.takeWhile (fun line => !stop line)
  block.filterMap (fun line =>
    (text_after "Disallow: ".toList line).map (fun t => protocol ++ "://".toList ++ domain ++ t))

/-- Spec §4.2, the stopping line in the specification's words: a line that "starts a new
`User-agent:` block whose value is not `*`". -/
def stop_claimed (line : Str) : Bool :=
  decide ("User-agent: ".toList <+: line ∧ line.drop "User-agent: ".toList.length ≠ "*".toList)

/-- The stopping line as line 45 has it: a line that contains `User-agent: ` anywhere and
whose last character is not `*`. -/
def stop_contains (line : Str) : Bool :=
  decide ("User-agent: ".toList <:+: line ∧ line.getLast? ≠ some '*')

/-- Invariant of the main loop, for the protocol, domain and pattern of the run, its seed URL,
its robots exclusions and the responses `rs` the network may give. -/
structure Inv (protocol domain seed : Str) (regex_search : Str → Bool) (blocked : StrSet)
    (rs : List Response) (st : Crawl) : Prop where
  /-- What was pushed is what was fetched followed by what waits in the frontier. -/
  queue : st.pushed = st.fetched ++ st.to_visit
  /-- Nothing was pushed twice. -/
  nodup : st.pushed.Nodup
  /-- What was pushed is in the visited set. -/
  marked : ∀ u ∈ st.pushed, u ∈ st.visited
  /-- The robots exclusions stay in the visited set. -/
  kept : ∀ u ∈ blocked, u ∈ st.visited
  /-- The seed was pushed first. -/
  first : st.pushed.head? = some seed
  /-- Everything pushed after the seed is in scope. -/
  scope : ∀ u ∈ st.pushed.tail, regex_search u = true
  /-- Nothing pushed after the seed is excluded by robots. -/
  robots : ∀ u ∈ st.pushed.tail, u ∉ blocked
  /-- Everything pushed after the seed is the normal form of a reference of some response. -/
  origin : ∀ u ∈ st.pushed.tail, ∃ r ∈ rs, ∃ href, some href ∈ r.hrefs ∧
    u = normalize protocol domain href

/-! ## Scenarios of the specification -/

/-- Scope predicate of Scenario A: `std::regex_search` with the pattern `^http://example\.com/`,
a start anchor followed by literal characters, succeeds exactly on the strings that start
with `http://example.com/`. -/
def scenario_scope (url : Str) : Bool := "http://example.com/".toList.isPrefixOf url

/-- Scenario A: the configuration. -/
def scenario_config : Config where
  seed_url := "http://example.com/a".toList
  url_regex := some scenario_scope
  sleep_time := 0
  save_html := none
  save_text := some true

/-- Scenario A: the answer to the request for `/a`, an HTML page with the four links. -/
def scenario_page : Response where
  status_code := 200
  content_type := "text/html".toList
  text := "<a href=/b></a><a href=#frag></a><a href=http://other.com/x></a><a href=/a></a>".toList
  text_nodes := []
  hrefs := [some "/b".toList, some "#frag".toList, some "http://other.com/x".toList,
    some "/a".toList]

/-- Scenario B: the robots document. -/
def scenario_robots : Str := "User-agent: *\nDisallow: /private".toList

/-- Scenario B with the excluded URL as the seed. -/
def private_config : Config := { scenario_config with seed_url := "http://example.com/private".toList }

/-- Scenario E: both output toggles off. -/
def no_output_config : Config :=
  { scenario_config with save_html := some false, save_text := some false }

/-- A robots document whose wildcard block is followed by a block for the agent `a*`. -/
def robots_starred_agent : Str := "User-agent: *\nUser-agent: a*\nDisallow: /x".toList

/-- A robots document with a comment that mentions `User-agent: ` inside the wildcard block. -/
def robots_comment : Str :=
  "User-agent: *\nDisallow: /a\n# User-agent: x is welcome\nDisallow: /b".toList

/-! ## Facts about the string operations -/

theorem findAux_shift (pat : Str) (s : Str) (i : Nat) :
    findAux pat s i = (findAux pat s 0).map (fun n => n + i) := by
  induction s generalizing i with
  | nil => simp [findAux]
  | cons c cs ih =>
    simp only [findAux]
    split
    · simp
    · rw [ih (i + 1), ih 1]
      cases findAux pat cs 0 <;> simp
      omega

theorem findAux_eq_some (pat s : Str) (n : Nat) :
    findAux pat s 0 = some n ↔
      n ≤ s.length ∧ pat <+: s.drop n ∧ ∀ j, j < n → ¬ pat <+: s.drop j := by
  induction s generalizing n with
  | nil =>
    simp only [findAux, List.isPrefixOf_iff_prefix]
    constructor
    · intro h
      split at h
      · cases h; simp_all
      · cases h
    · rintro ⟨h1, h2, -⟩
      simp at h1; subst h1
      simp at h2
      simp [h2]
  | cons c cs ih =>
    simp only [findAux, List.isPrefixOf_iff_prefix]
    split
    · rename_i h
      constructor
      · intro h0; cases h0; simp [h]
      · rintro ⟨-, -, h3⟩
        cases n with
        | zero => rfl
        | succ m => exact absurd h (h3 0 (by omega))
    · rename_i h
      rw [findAux_shift]
      constructor
      · intro h0
        cases hm : findAux pat cs 0 with
        | none => simp [hm] at h0
        | some m =>
          simp [hm] at h0; subst h0
          obtain ⟨a, b, c⟩ := (ih m).1 hm
          refine ⟨by simp; omega, by simpa using b, ?_⟩
          intro j hj
          cases j with
          | zero => simpa using h
          | succ k => simpa using c k (by omega)
      · rintro ⟨h1, h2, h3⟩
        cases n with
        | zero => exact absurd (by simpa using h2) h
        | succ m =>
          have := (ih m).2 ⟨by simpa using h1, by simpa using h2,
            fun j hj => by simpa using h3 (j+1) (by omega)⟩
          simp [this]

theorem findAux_eq_none (pat s : Str) :
    findAux pat s 0 = none ↔ ∀ j, j ≤ s.length → ¬ pat <+: s.drop j := by
  induction s with
  | nil =>
    simp only [findAux, List.isPrefixOf_iff_prefix]
    constructor
    · intro h j hj
      split at h
      · cases h
      · simpa using ‹¬ pat <+: []›
    · intro h
      have := h 0 (by simp)
      simp at this
      simp [this]
  | cons c cs ih =>
    simp only [findAux, List.isPrefixOf_iff_prefix]
    split
    · rename_i h
      simp
      exact ⟨0, by simp, by simpa using h⟩
    · rename_i h
      rw [findAux_shift]
      simp only [Option.map_eq_none', ih]
      constructor
      · intro h1 j hj
        cases j with
        | zero => simpa using h
        | succ k => simpa using h1 k (by simpa using hj)
      · intro h1 j hj
        simpa using h1 (j+1) (by simpa using hj)

theorem find_zero (s pat : Str) : find s pat 0 = findAux pat s 0 := by
  simp [find]

/-- An occurrence of `pat` somewhere in `s` is an occurrence at some index. -/
theorem infix_iff_drop (pat s : Str) :
    pat <:+: s ↔ ∃ j, j ≤ s.length ∧ pat <+: s.drop j := by
  constructor
  · rintro ⟨a, b, rfl⟩
    refine ⟨a.length, by simp, ?_⟩
    simp [List.append_assoc]
  · rintro ⟨j, -, t, ht⟩
    refine ⟨s.take j, t, ?_⟩
    rw [List.append_assoc, ht, List.take_append_drop]

theorem find_zero_eq_none (s pat : Str) : find s pat 0 = none ↔ ¬ pat <:+: s := by
  rw [find_zero, findAux_eq_none, infix_iff_drop]
  push_neg
  rfl

/-- A successful search splits the string around the occurrence found. -/
theorem findAux_split (pat s : Str) (n : Nat) (h : findAux pat s 0 = some n) :
    s = s.take n ++ pat ++ s.drop (n + pat.length) ∧ (s.take n).length = n := by
  obtain ⟨h1, ⟨t, ht⟩, -⟩ := (findAux_eq_some pat s n).1 h
  refine ⟨?_, by simp [h1]⟩
  have h2 : s.drop (n + pat.length) = t := by
    rw [← List.drop_drop, ← ht]; simp
  rw [h2, List.append_assoc, ht, List.take_append_drop]

/-- Search for a single character: found at the end of a prefix without it. -/
theorem findAux_char_append (c : Char) (pre suf : Str) (h : c ∉ pre) :
    findAux [c] (pre ++ c :: suf) 0 = some pre.length := by
  induction pre with
  | nil => simp [findAux]
  | cons a pre ih =>
    have ha : ¬ c = a := fun e => h (by simp [e])
    have hc : c ∉ pre := fun e => h (by simp [e])
    rw [List.cons_append]
    simp only [findAux]
    rw [findAux_shift, ih hc]
    simp [ha]

theorem findAux_char_eq_none (c : Char) (s : Str) : findAux [c] s 0 = none ↔ c ∉ s := by
  induction s with
  | nil => simp [findAux]
  | cons a s ih =>
    simp only [findAux]
    rw [findAux_shift]
    by_cases ha : c = a
    · simp [ha]
    · simp [ha, ih]

theorem findAux_char_eq_some (c : Char) (s : Str) (k : Nat) (h : findAux [c] s 0 = some k) :
    c ∉ s.take k ∧ s = s.take k ++ c :: s.drop (k + 1) := by
  induction s generalizing k with
  | nil => simp [findAux] at h
  | cons a s ih =>
    simp only [findAux] at h
    rw [findAux_shift] at h
    by_cases ha : c = a
    · simp [ha] at h
      subst h; simp [ha]
    · simp [ha] at h
      obtain ⟨m, hm, rfl⟩ := h
      obtain ⟨h1, h2⟩ := ih m hm
      refine ⟨by simp [ha, h1], ?_⟩
      simp only [List.take_succ_cons, List.drop_succ_cons, List.cons_append]
      rw [← h2]

/-! ## Parsing the seed URL -/

theorem find_from (s pat : Str) (p : Nat) (hp : p ≤ s.length) :
    find s pat p = (findAux pat (s.drop p) 0).map (fun n => n + p) := by
  simp only [find, Nat.not_lt.2 hp, if_false]
  rw [findAux_shift]

theorem seed_parts_eq_some (s protocol domain : Str) :
    seed_parts s = some (protocol, domain) ↔
      ∃ rest, s = protocol ++ "://".toList ++ domain ++ '/' :: rest ∧
        (∀ j, j < protocol.length → ¬ "://".toList <+: s.drop j) ∧ '/' ∉ domain := by
  have e1 : "://".toList = [':', '/', '/'] := rfl
  have e2 : "/".toList = ['/'] := rfl
  unfold seed_parts
  simp only [e1, e2]
  constructor
  · intro h
    cases h1 : find s [':', '/', '/'] 0 with
    | none => simp [h1] at h
    | some n =>
      rw [find_zero] at h1
      obtain ⟨hn, hpre, hfirst⟩ := (findAux_eq_some _ _ _).1 h1
      obtain ⟨hsplit, hlen⟩ := findAux_split _ _ _ h1
      have hl : n + 3 ≤ s.length := by
        have := congrArg List.length hsplit
        simp at this
        omega
      simp only [h1, find_zero] at h
      rw [find_from _ _ _ hl] at h
      cases h2 : findAux ['/'] (s.drop (n + 3)) 0 with
      | none => simp [h2] at h
      | some k =>
        obtain ⟨hk1, hk2⟩ := findAux_char_eq_some _ _ _ h2
        simp only [h2, Option.map_some', substr, Option.some.injEq, Prod.mk.injEq] at h
        obtain ⟨rfl, rfl⟩ := h
        refine ⟨(s.drop (n + 3)).drop (k + 1), ?_, ?_, ?_⟩
        · simp only [List.drop_zero, Nat.add_sub_cancel]
          rw [List.append_assoc _ _ (_ :: _), ← hk2]
          exact hsplit
        · intro j hj
          simp at hj
          exact hfirst j hj.1
        · simpa using hk1
  · rintro ⟨rest, hs, hfirst, hd⟩
    have h1 : findAux [':', '/', '/'] s 0 = some protocol.length := by
      rw [findAux_eq_some]
      refine ⟨by rw [hs]; simp, ?_, hfirst⟩
      rw [hs]
      simp [List.append_assoc]
    have hdrop : s.drop (protocol.length + 3) = domain ++ '/' :: rest := by
      rw [hs]
      simp [List.append_assoc]
    have hl : protocol.length + 3 ≤ s.length := by
      rw [hs]; simp
    have h2 : findAux ['/'] (s.drop (protocol.length + 3)) 0 = some domain.length := by
      rw [hdrop]
      exact findAux_char_append _ _ _ hd
    simp only [find_zero, h1]
    rw [find_from _ _ _ hl, h2]
    simp only [Option.map_some', substr, List.drop_zero, Nat.add_sub_cancel, hdrop]
    rw [hs]
    simp [List.append_assoc]

theorem seed_parts_eq_none (s : Str) :
    seed_parts s = none ↔
      ¬ "://".toList <:+: s ∨
      ∃ p post, s = p ++ "://".toList ++ post ∧
        (∀ j, j < p.length → ¬ "://".toList <+: s.drop j) ∧ '/' ∉ post := by
  have e1 : "://".toList = [':', '/', '/'] := rfl
  have e2 : "/".toList = ['/'] := rfl
  unfold seed_parts
  simp only [e1, e2]
  cases h1 : find s [':', '/', '/'] 0 with
  | none =>
    have := (find_zero_eq_none s _).1 h1
    simp [this]
  | some n =>
    have hin : [':', '/', '/'] <:+: s := by
      by_contra hc
      rw [(find_zero_eq_none s _).2 hc] at h1
      cases h1
    rw [find_zero] at h1
    obtain ⟨hn, hpre, hfirst⟩ := (findAux_eq_some _ _ _).1 h1
    obtain ⟨hsplit, hlen⟩ := findAux_split _ _ _ h1
    have hl : n + 3 ≤ s.length := by
      have := congrArg List.length hsplit
      simp at this
      omega
    simp only [hin, not_true_eq_false, false_or]
    rw [find_from _ _ _ hl]
    constructor
    · intro h
      have h2 : findAux ['/'] (s.drop (n + 3)) 0 = none := by
        cases h3 : findAux ['/'] (s.drop (n + 3)) 0 with
        | none => rfl
        | some k => simp [h3] at h
      refine ⟨s.take n, s.drop (n + 3), hsplit, ?_, (findAux_char_eq_none _ _).1 h2⟩
      intro j hj
      simp at hj
      exact hfirst j hj.1
    · rintro ⟨p, post, hs, hf, hp⟩
      have h3 : findAux [':', '/', '/'] s 0 = some p.length := by
        rw [findAux_eq_some]
        refine ⟨by rw [hs]; simp, ?_, hf⟩
        rw [hs]
        simp [List.append_assoc]
      rw [h1] at h3
      cases h3
      have hdrop : s.drop (p.length + 3) = post := by
        rw [hs]
        simp [List.append_assoc]
      rw [hdrop, (findAux_char_eq_none _ _).2 hp]
      rfl

/-- C10. A run ends with exit code 0 and no request sent exactly when the seed URL has no
`://` or no `/` after its first `://`; for every other seed URL the protocol is the text before
the first `://`, the domain the text between that `://` and the next `/`, and these are the
parts the robots.txt request is built from. -/
theorem seed_url_parsing (argc : Nat) (config : Config) (robots_text : Str)
    (responses : List Response) (hargc : argc = 2) :
    (((main argc config robots_text responses).exit = Exit.code 0 ∧
        (main argc config robots_text responses).gets = []) ↔
      (¬ "://".toList <:+: config.seed_url ∨
        ∃ p post, config.seed_url = p ++ "://".toList ++ post ∧
          (∀ j, j < p.length → ¬ "://".toList <+: config.seed_url.drop j) ∧ '/' ∉ post)) ∧
    (∀ protocol domain rest,
      config.seed_url = protocol ++ "://".toList ++ domain ++ '/' :: rest →
      (∀ j, j < protocol.length → ¬ "://".toList <+: config.seed_url.drop j) →
      '/' ∉ domain →
        seed_parts config.seed_url = some (protocol, domain) ∧
        (main argc config robots_text responses).gets.head? =
          some (protocol ++ "://".toList ++ domain ++ "/robots.txt".toList)) := by
  subst hargc
  constructor
  · rw [← seed_parts_eq_none]
    unfold main
    cases hp : seed_parts config.seed_url with
    | none => simp
    | some pd =>
      obtain ⟨p, d⟩ := pd
      cases hr : config.url_regex with
      | none => simp
      | some re =>
        simp only [ne_eq, not_true_eq_false, if_false]
        split <;> simp
  · intro protocol domain rest hs hf hd
    have hp := (seed_parts_eq_some _ _ _).2 ⟨rest, hs, hf, hd⟩
    refine ⟨hp, ?_⟩
    unfold main
    simp only [hp]
    cases hr : config.url_regex with
    | none => simp
    | some re =>
      simp only [ne_eq, not_true_eq_false, if_false]
      split <;> simp


/-- C10 at the seed of Scenario A: protocol `http`, domain `example.com`, and the first
request goes to `http://example.com/robots.txt`. -/
theorem seed_url_parsing_witness :
    (2 = 2) ∧
    (scenario_config.seed_url = "http".toList ++ "://".toList ++ "example.com".toList
      ++ '/' :: "a".toList) ∧
    (∀ j, j < "http".toList.length → ¬ "://".toList <+: scenario_config.seed_url.drop j) ∧
    ('/' ∉ "example.com".toList) ∧
    (seed_parts scenario_config.seed_url = some ("http".toList, "example.com".toList) ∧
      (main 2 scenario_config [] []).gets.head? =
        some ("http".toList ++ "://".toList ++ "example.com".toList ++ "/robots.txt".toList)) :=
  ⟨rfl, by decide, by decide, by decide,
    (seed_url_parsing 2 scenario_config [] [] rfl).2 "http".toList "example.com".toList
      "a".toList (by decide) (by decide) (by decide)⟩

/-! ## Normalization of references -/

theorem find_last_of_eq_none (s chars : Str) :
    find_last_of s chars = none ↔ ∀ c ∈ s, c ∉ chars := by
  induction s with
  | nil => simp [find_last_of]
  | cons a s ih =>
    simp only [find_last_of]
    cases h : find_last_of s chars with
    | some i =>
      have := mt ih.2
      simp only [h] at this
      simp only [reduceCtorEq, false_iff]
      intro hc
      exact this (by simp) (fun c hcs => hc c (by simp [hcs]))
    | none =>
      have := ih.1 h
      by_cases ha : a ∈ chars
      · simp [ha]
      · simpa [ha] using this

theorem find_last_of_append (pre suf chars : Str) (c : Char) (hc : c ∈ chars)
    (hsuf : ∀ x ∈ suf, x ∉ chars) :
    find_last_of (pre ++ c :: suf) chars = some pre.length := by
  induction pre with
  | nil =>
    simp only [List.nil_append, find_last_of, (find_last_of_eq_none suf chars).2 hsuf]
    simp [hc]
  | cons a pre ih =>
    rw [List.cons_append]
    simp only [find_last_of, ih]
    rfl

theorem find_last_of_eq_some (s chars : Str) (n : Nat) (h : find_last_of s chars = some n) :
    ∃ c suf, s = s.take n ++ c :: suf ∧ c ∈ chars ∧ (∀ x ∈ suf, x ∉ chars) ∧ n < s.length := by
  induction s generalizing n with
  | nil => simp [find_last_of] at h
  | cons a s ih =>
    simp only [find_last_of] at h
    cases h1 : find_last_of s chars with
    | some i =>
      simp only [h1, Option.some.injEq] at h
      subst h
      obtain ⟨c, suf, e, hc, hs, hl⟩ := ih i h1
      refine ⟨c, suf, ?_, hc, hs, by simp; omega⟩
      simp only [List.take_succ_cons, List.cons_append]
      rw [← e]
    | none =>
      simp only [h1] at h
      by_cases ha : a ∈ chars
      · simp only [ha, if_true, Option.some.injEq] at h
        subst h
        exact ⟨a, s, by simp, ha, (find_last_of_eq_none s chars).1 h1, by simp⟩
      · simp [ha] at h

/-- The calls of `substr` stay inside their string: what follows a match of `find` starts at
most at the end of the string, and so does what follows the character `find_last_of` found. -/
theorem substr_in_range :
    (∀ (s pat : Str) (n : Nat), find s pat 0 = some n → n + pat.length ≤ s.length) ∧
    (∀ (s chars : Str) (n : Nat), find_last_of s chars = some n → n + 1 ≤ s.length) := by
  constructor
  · intro s pat n h
    rw [find_zero] at h
    have := congrArg List.length (findAux_split pat s n h).1
    have h2 := (findAux_split pat s n h).2
    simp only [List.length_append] at this
    omega
  · intro s chars n h
    obtain ⟨-, -, -, -, -, hlt⟩ := find_last_of_eq_some s chars n h
    omega

/-- The code's test for a leading `//` or `/` agrees with the specification's. -/
theorem resolve_eq_spec (protocol domain href : Str) :
    resolve protocol domain href = resolve_spec protocol domain href := by
  unfold resolve resolve_spec
  have e1 : "//".toList = ['/', '/'] := rfl
  have e2 : "/".toList = ['/'] := rfl
  rw [e1, e2]
  match href with
  | [] => simp [nul]
  | [a] =>
    by_cases ha : a = '/'
    · simp [ha, List.getD]
    · have ha2 : ¬ '/' = a := fun h => ha h.symm
      simp [ha, ha2, List.getD]
  | a :: b :: r =>
    by_cases ha : a = '/' <;> by_cases hb : b = '/' <;> simp [ha, hb, List.getD, eq_comm]

theorem mem_separators (x : Char) : x ∈ "#/".toList ↔ x = '#' ∨ x = '/' := by
  have e : "#/".toList = ['#', '/'] := rfl
  rw [e]; simp

theorem dropWhile_append_stop (p : Char → Bool) (l r : Str) (c : Char)
    (hl : ∀ x ∈ l, p x = true) (hc : p c = false) :
    (l ++ c :: r).dropWhile p = c :: r := by
  induction l with
  | nil => simp [List.dropWhile, hc]
  | cons a l ih =>
    have ha : p a = true := hl a (by simp)
    rw [List.cons_append, List.dropWhile_cons, if_pos ha]
    exact ih (fun x hx => hl x (by simp [hx]))

/-- The truncation of line 199, in terms of a split of the string at its last separator. -/
theorem truncate_split (s pre suf : Str) (c : Char) (hs : s = pre ++ c :: suf)
    (hc : c = '#' ∨ c = '/') (hsuf : ∀ x ∈ suf, x ≠ '#' ∧ x ≠ '/') :
    substr s 0 (find_last_of s "#/".toList) = pre := by
  have h := find_last_of_append pre suf "#/".toList c ((mem_separators c).2 hc)
    (fun x hx => by rw [mem_separators]; have := hsuf x hx; tauto)
  rw [hs, h]
  simp [substr]

theorem truncate_none (s : Str) (hs : ∀ x ∈ s, x ≠ '#' ∧ x ≠ '/') :
    substr s 0 (find_last_of s "#/".toList) = s := by
  have h := (find_last_of_eq_none s "#/".toList).2
    (fun x hx => by rw [mem_separators]; have := hs x hx; tauto)
  rw [h]
  simp [substr]

/-- Either the string has no separator, or it splits at its last one. -/
theorem separator_cases (s : Str) :
    (∀ x ∈ s, x ≠ '#' ∧ x ≠ '/') ∨
    ∃ pre c suf, s = pre ++ c :: suf ∧ (c = '#' ∨ c = '/') ∧ ∀ x ∈ suf, x ≠ '#' ∧ x ≠ '/' := by
  cases h : find_last_of s "#/".toList with
  | none =>
    left
    intro x hx
    have := (find_last_of_eq_none s _).1 h x hx
    rw [mem_separators] at this
    tauto
  | some n =>
    right
    obtain ⟨c, suf, e, hc, hsuf, -⟩ := find_last_of_eq_some s _ n h
    refine ⟨s.take n, c, suf, e, (mem_separators c).1 hc, ?_⟩
    intro x hx
    have := hsuf x hx
    rw [mem_separators] at this
    tauto

theorem truncate_eq_spec (s : Str) :
    substr s 0 (find_last_of s "#/".toList) = truncate_spec s := by
  rcases separator_cases s with h | ⟨pre, c, suf, hs, hc, hsuf⟩
  · rw [truncate_none s h]
    unfold truncate_spec
    rw [if_neg]
    rintro ⟨c, hc, hc2⟩
    have := h c hc
    tauto
  · rw [truncate_split s pre suf c hs hc hsuf]
    unfold truncate_spec
    rw [if_pos ⟨c, by rw [hs]; simp, hc⟩, hs]
    have hrev : (pre ++ c :: suf).reverse = suf.reverse ++ c :: pre.reverse := by simp
    rw [hrev, dropWhile_append_stop]
    · simp
    · intro x hx
      have := hsuf x (List.mem_reverse.1 hx)
      simp [this.1, this.2]
    · rcases hc with rfl | rfl <;> simp

/-- C6. The normalization done by the link loop is the one the specification defines: the
reference is made absolute by the three rules on its leading `//` or `/`, and the result is
cut right before its last `#` or `/`, or kept whole when it has neither. -/
theorem normalize_eq_spec (protocol domain href : Str) :
    normalize protocol domain href = normalize_spec protocol domain href ∧
    (∀ pre c suf, resolve_spec protocol domain href = pre ++ c :: suf →
      (c = '#' ∨ c = '/') → (∀ x ∈ suf, x ≠ '#' ∧ x ≠ '/') →
      normalize protocol domain href = pre) ∧
    ((∀ x ∈ resolve_spec protocol domain href, x ≠ '#' ∧ x ≠ '/') →
      normalize protocol domain href = resolve_spec protocol domain href) := by
  unfold normalize normalize_spec
  simp only [resolve_eq_spec]
  exact ⟨truncate_eq_spec _, fun pre c suf hs hc hsuf => truncate_split _ pre suf c hs hc hsuf,
    fun h => truncate_none _ h⟩

theorem resolve_of_not_slash (protocol domain href : Str) (h : href.getD 0 nul ≠ '/') :
    resolve protocol domain href = href := by
  unfold resolve
  rw [if_neg h]

/-- Where the string has a separator, the truncation is strictly shorter. -/
theorem truncate_lt (s : Str) (c : Char) (hc : c ∈ s) (hsep : c = '#' ∨ c = '/') :
    (substr s 0 (find_last_of s "#/".toList)).length < s.length := by
  rcases separator_cases s with h | ⟨pre, d, suf, hs, hd, hsuf⟩
  · have := h c hc
    tauto
  · rw [truncate_split s pre suf d hs hd hsuf, hs]
    simp

theorem truncate_initial (s : Str) : substr s 0 (find_last_of s "#/".toList) <+: s := by
  cases h : find_last_of s "#/".toList with
  | none => simp [substr]
  | some n => simpa [substr] using List.take_prefix n s

theorem getD_of_prefix (y x : Str) (h : y <+: x) (hx : x.getD 0 nul ≠ '/') :
    y.getD 0 nul ≠ '/' := by
  obtain ⟨t, rfl⟩ := h
  cases y with
  | nil => simp [nul]
  | cons a y => simpa using hx

/-- A string holding `://` still has a `/` after the truncation of line 199. -/
theorem slash_mem_truncate (x : Str) (h : "://".toList <:+: x) :
    '/' ∈ substr x 0 (find_last_of x "#/".toList) := by
  obtain ⟨a, b, hab⟩ := h
  have e : "://".toList = [':', '/', '/'] := rfl
  rw [e] at hab
  rcases separator_cases x with hn | ⟨pre, c, suf, hs, hc, hsuf⟩
  · have := hn '/' (by rw [← hab]; simp)
    tauto
  · rw [truncate_split x pre suf c hs hc hsuf]
    have h2 : (a ++ [':', '/']) ++ '/' :: b = pre ++ c :: suf := by
      rw [← hs, ← hab]; simp
    rcases List.append_eq_append_iff.1 h2 with ⟨a', h3, h4⟩ | ⟨c', h3, h4⟩
    · rw [h3]; simp
    · cases c' with
      | nil =>
        simp at h3
        rw [← h3]; simp
      | cons d c' =>
        simp at h4
        have := hsuf '/' (by rw [h4.2]; simp)
        tauto

theorem normalize_of_not_slash (protocol domain href : Str) (h : href.getD 0 nul ≠ '/') :
    normalize protocol domain href = substr href 0 (find_last_of href "#/".toList) := by
  unfold normalize
  simp only [resolve_of_not_slash protocol domain href h]

/-- A reference in absolute, un-fragmented form does not start with `/` and holds `://`. -/
theorem absolute_not_slash (x : Str) (hx : absolute_unfragmented x) :
    x.getD 0 nul ≠ '/' ∧ "://".toList <:+: x := by
  obtain ⟨scheme, rest, hne, halpha, rfl, -⟩ := hx
  constructor
  · cases scheme with
    | nil => exact absurd rfl hne
    | cons a scheme =>
      have := halpha a (by simp)
      simp only [List.cons_append, List.getD_cons_zero]
      rintro rfl
      revert this
      decide
  · exact ⟨scheme, rest, rfl⟩

/-- C7, as the code has it. For a reference that does not start with `/`, normalizing twice
gives the same as normalizing once exactly when the normal form holds neither `/` nor `#`.
A reference that holds `://`, as every reference in absolute form does, is never such: its
normal form still holds a `/`, and normalizing it again cuts a further trailing segment off,
leaving a strictly shorter prefix. -/
theorem normalize_twice (protocol domain x : Str) (hx : x.getD 0 nul ≠ '/') :
    (normalize protocol domain (normalize protocol domain x) = normalize protocol domain x ↔
      ∀ c ∈ normalize protocol domain x, c ≠ '#' ∧ c ≠ '/') ∧
    ("://".toList <:+: x →
      normalize protocol domain (normalize protocol domain x) ≠ normalize protocol domain x ∧
      normalize protocol domain (normalize protocol domain x) <+: normalize protocol domain x ∧
      (normalize protocol domain (normalize protocol domain x)).length
        < (normalize protocol domain x).length) := by
  have h1 := normalize_of_not_slash protocol domain x hx
  have hy : (normalize protocol domain x).getD 0 nul ≠ '/' := by
    rw [h1]
    exact getD_of_prefix _ x (truncate_initial x) hx
  have hmem : "://".toList <:+: x → '/' ∈ normalize protocol domain x := by
    intro habs
    rw [h1]
    exact slash_mem_truncate x habs
  have h2 := normalize_of_not_slash protocol domain (normalize protocol domain x) hy
  generalize normalize protocol domain x = y at hy hmem h2 ⊢
  rw [h2]
  constructor
  · constructor
    · intro h c hc
      by_contra hcon
      have hsep : c = '#' ∨ c = '/' := by tauto
      have := truncate_lt y c hc hsep
      rw [h] at this
      exact absurd this (lt_irrefl _)
    · intro h
      exact truncate_none y h
  · intro habs
    have hlt := truncate_lt y '/' (hmem habs) (Or.inr rfl)
    refine ⟨fun h => ?_, truncate_initial y, hlt⟩
    rw [h] at hlt
    exact absurd hlt (lt_irrefl _)

/-- C7, the amended statement at `http://example.com/a/b`, which does not start with `/`. -/
theorem normalize_twice_witness :
    ("http://example.com/a/b".toList.getD 0 nul ≠ '/') ∧
    (normalize "http".toList "example.com".toList
        (normalize "http".toList "example.com".toList "http://example.com/a/b".toList)
      = normalize "http".toList "example.com".toList "http://example.com/a/b".toList ↔
      ∀ c ∈ normalize "http".toList "example.com".toList "http://example.com/a/b".toList,
        c ≠ '#' ∧ c ≠ '/') :=
  ⟨by decide,
   (normalize_twice "http".toList "example.com".toList "http://example.com/a/b".toList
      (by decide)).1⟩

/-- C7, as stated, fails: `http://example.com/a/b` is in absolute, un-fragmented form, its
normal form is `http://example.com/a`, and the normal form of that is `http://example.com`. -/
theorem normalize_idempotence_counterexample :
    absolute_unfragmented "http://example.com/a/b".toList ∧
    normalize "http".toList "example.com".toList "http://example.com/a/b".toList
      = "http://example.com/a".toList ∧
    normalize "http".toList "example.com".toList
        (normalize "http".toList "example.com".toList "http://example.com/a/b".toList)
      = "http://example.com".toList ∧
    normalize "http".toList "example.com".toList
        (normalize "http".toList "example.com".toList "http://example.com/a/b".toList)
      ≠ normalize "http".toList "example.com".toList "http://example.com/a/b".toList := by
  refine ⟨⟨"http".toList, "example.com/a/b".toList, by decide, by decide, by decide, by decide⟩,
    by decide, by decide, by decide⟩

/-! ## The main loop and its invariant -/

theorem add_link_cases (protocol domain : Str) (re : Str → Bool) (st : Crawl)
    (href_attr : Option Str) :
    add_link protocol domain re st href_attr = st ∨
    ∃ href, href_attr = some href ∧ href.getD 0 nul ≠ '#' ∧
      re (normalize protocol domain href) = true ∧
      normalize protocol domain href ∉ st.visited ∧
      add_link protocol domain re st href_attr =
        { st with
          visited := st.visited.insert (normalize protocol domain href)
          to_visit := st.to_visit ++ [normalize protocol domain href]
          pushed := st.pushed ++ [normalize protocol domain href] } := by
  cases href_attr with
  | none => left; rfl
  | some href =>
    by_cases h1 : href.getD 0 nul = '#'
    · left
      simp only [add_link, h1, if_true]
    · by_cases h2 : re (normalize protocol domain href) = true ∧
          normalize protocol domain href ∉ st.visited
      · right
        refine ⟨href, rfl, h1, h2.1, h2.2, ?_⟩
        simp only [add_link, h1, if_false]
        rw [if_pos h2]
      · left
        simp only [add_link, h1, if_false]
        rw [if_neg h2]

theorem inv_add_link {protocol domain seed : Str} {re : Str → Bool} {blocked : StrSet}
    {rs : List Response} {st : Crawl} (h : Inv protocol domain seed re blocked rs st)
    (r : Response) (hr : r ∈ rs) (href_attr : Option Str) (hh : href_attr ∈ r.hrefs) :
    Inv protocol domain seed re blocked rs (add_link protocol domain re st href_attr) := by
  rcases add_link_cases protocol domain re st href_attr with e | ⟨href, rfl, -, h2, h3, e⟩
  · rw [e]; exact h
  · rw [e]
    obtain ⟨t, ht⟩ : ∃ t, st.pushed = seed :: t := by
      have := h.first
      cases hp : st.pushed with
      | nil => rw [hp] at this; cases this
      | cons a t =>
        rw [hp] at this
        simp only [List.head?_cons, Option.some.injEq] at this
        exact ⟨t, by rw [this]⟩
    have htail : st.pushed.tail = t := by rw [ht]; rfl
    have hnew : normalize protocol domain href ∉ st.pushed := fun hm => h3 (h.marked _ hm)
    have hscope := h.scope
    have hrobots := h.robots
    have horigin := h.origin
    rw [htail] at hscope hrobots horigin
    constructor
    · show st.pushed ++ [_] = st.fetched ++ (st.to_visit ++ [_])
      rw [h.queue, List.append_assoc]
    · show (st.pushed ++ [_]).Nodup
      rw [List.nodup_append]
      refine ⟨h.nodup, List.nodup_singleton _, ?_⟩
      intro x hx hx2
      rw [List.mem_singleton] at hx2
      subst hx2
      exact hnew hx
    · show ∀ u ∈ st.pushed ++ [_], u ∈ List.insert _ st.visited
      intro u hu
      rw [List.mem_insert_iff]
      rcases List.mem_append.1 hu with hu | hu
      · exact Or.inr (h.marked u hu)
      · exact Or.inl (List.mem_singleton.1 hu)
    · show ∀ u ∈ blocked, u ∈ List.insert _ st.visited
      intro u hu
      rw [List.mem_insert_iff]
      exact Or.inr (h.kept u hu)
    · show (st.pushed ++ [_]).head? = some seed
      rw [ht]; rfl
    · dsimp only
      rw [ht]
      intro u hu
      rcases List.mem_append.1 hu with hu | hu
      · exact hscope u hu
      · rw [List.mem_singleton.1 hu]; exact h2
    · dsimp only
      rw [ht]
      intro u hu
      rcases List.mem_append.1 hu with hu | hu
      · exact hrobots u hu
      · rw [List.mem_singleton.1 hu]
        exact fun hb => h3 (h.kept _ hb)
    · dsimp only
      rw [ht]
      intro u hu
      rcases List.mem_append.1 hu with hu | hu
      · exact horigin u hu
      · rw [List.mem_singleton.1 hu]
        exact ⟨r, hr, href, hh, rfl⟩

theorem inv_foldl {protocol domain seed : Str} {re : Str → Bool} {blocked : StrSet}
    {rs : List Response} (r : Response) (hr : r ∈ rs) (l : List (Option Str))
    (hl : ∀ x ∈ l, x ∈ r.hrefs) (st : Crawl)
    (h : Inv protocol domain seed re blocked rs st) :
    Inv protocol domain seed re blocked rs (l.foldl (add_link protocol domain re) st) := by
  induction l generalizing st with
  | nil => exact h
  | cons a l ih =>
    rw [List.foldl_cons]
    exact ih (fun x hx => hl x (by simp [hx])) _
      (inv_add_link h r hr a (hl a (by simp)))

/-- The invariant only looks at the frontier, the visited set and the two URL logs. -/
theorem inv_congr {protocol domain seed : Str} {re : Str → Bool} {blocked : StrSet}
    {rs : List Response} {st st' : Crawl} (h : Inv protocol domain seed re blocked rs st)
    (h1 : st'.to_visit = st.to_visit) (h2 : st'.visited = st.visited)
    (h3 : st'.pushed = st.pushed) (h4 : st'.fetched = st.fetched) :
    Inv protocol domain seed re blocked rs st' := by
  constructor
  · rw [h3, h4, h1]; exact h.queue
  · rw [h3]; exact h.nodup
  · rw [h3, h2]; exact h.marked
  · rw [h2]; exact h.kept
  · rw [h3]; exact h.first
  · rw [h3]; exact h.scope
  · rw [h3]; exact h.robots
  · rw [h3]; exact h.origin

theorem inv_iteration {protocol domain seed : Str} {re : Str → Bool} {blocked : StrSet}
    {rs : List Response} {st : Crawl} (h : Inv protocol domain seed re blocked rs st)
    (save_html save_text : Bool) (r : Response) (hr : r ∈ rs) :
    Inv protocol domain seed re blocked rs
      (iteration protocol domain re save_html save_text r st) := by
  unfold iteration
  cases hq : st.to_visit with
  | nil => simp only; exact h
  | cons url queue =>
    simp only
    have h1 : Inv protocol domain seed re blocked rs
        { st with to_visit := queue, fetched := st.fetched ++ [url] } := by
      constructor
      · show st.pushed = (st.fetched ++ [url]) ++ queue
        rw [h.queue, hq]; simp
      · exact h.nodup
      · exact h.marked
      · exact h.kept
      · exact h.first
      · exact h.scope
      · exact h.robots
      · exact h.origin
    unfold loop_body
    simp only
    split
    · exact h1
    · split
      · exact h1
      · apply inv_foldl r hr _ (fun x hx => hx)
        cases save_html <;> cases save_text <;> exact inv_congr h1 rfl rfl rfl rfl

theorem inv_main_loop {protocol domain seed : Str} {re : Str → Bool} {blocked : StrSet}
    {rs : List Response} (save_html save_text : Bool) (responses : List Response)
    (hrs : ∀ r ∈ responses, r ∈ rs) (st : Crawl)
    (h : Inv protocol domain seed re blocked rs st) :
    Inv protocol domain seed re blocked rs
      (main_loop protocol domain re save_html save_text responses st) := by
  induction responses generalizing st with
  | nil => exact h
  | cons r responses ih =>
    unfold main_loop
    cases hq : st.to_visit with
    | nil => simp only; exact h
    | cons url queue =>
      simp only
      exact ih (fun x hx => hrs x (by simp [hx])) _
        (inv_iteration h save_html save_text r (hrs r (by simp)))

/-- Every run of `main` either never seeds the frontier or is in a state of the invariant. -/
theorem main_inv (argc : Nat) (config : Config) (robots_text : Str)
    (responses : List Response) :
    ((main argc config robots_text responses).crawl.pushed = [] ∧
      (main argc config robots_text responses).crawl.fetched = [] ∧
      (main argc config robots_text responses).crawl.to_visit = []) ∨
    ∃ protocol domain re, seed_parts config.seed_url = some (protocol, domain) ∧
      config.url_regex = some re ∧
      Inv protocol domain config.seed_url re (block_urls robots_text protocol domain [])
        responses (main argc config robots_text responses).crawl := by
  unfold main
  by_cases ha : argc ≠ 2
  · left; simp [ha, Crawl.empty]
  · simp only [ha, if_false]
    cases hp : seed_parts config.seed_url with
    | none => left; simp [Crawl.empty]
    | some pd =>
      obtain ⟨p, d⟩ := pd
      cases hre : config.url_regex with
      | none => left; simp [Crawl.empty]
      | some re =>
        simp only
        split
        · left; simp [Crawl.empty]
        · right
          refine ⟨p, d, re, rfl, rfl, ?_⟩
          apply inv_main_loop _ _ _ (fun r hr => hr)
          constructor
          · simp [Crawl.empty]
          · simp [Crawl.empty]
          · simp [Crawl.empty]
          · intro u hu
            show u ∈ List.insert _ _
            rw [List.mem_insert_iff]; exact Or.inr hu
          · simp [Crawl.empty]
          · simp [Crawl.empty]
          · simp [Crawl.empty]
          · simp [Crawl.empty]

/-- C2. In every run nothing is pushed onto the frontier twice and no page is fetched twice:
the pushed URLs are the fetched ones followed by the waiting ones, without repetition, and all
of them are in the visited set. A pass of the link loop either changes nothing or pushes one
URL that was not in the visited set and inserts it there in the same pass. -/
theorem dedup_invariant (argc : Nat) (config : Config) (robots_text : Str)
    (responses : List Response) :
    (main argc config robots_text responses).crawl.pushed.Nodup ∧
    (main argc config robots_text responses).crawl.fetched.Nodup ∧
    (main argc config robots_text responses).crawl.pushed =
      (main argc config robots_text responses).crawl.fetched ++
        (main argc config robots_text responses).crawl.to_visit ∧
    (∀ u ∈ (main argc config robots_text responses).crawl.pushed,
      u ∈ (main argc config robots_text responses).crawl.visited) ∧
    ∀ (protocol domain : Str) (re : Str → Bool) (st : Crawl) (href_attr : Option Str),
      add_link protocol domain re st href_attr = st ∨
      ∃ u, u ∉ st.visited ∧
        (add_link protocol domain re st href_attr).to_visit = st.to_visit ++ [u] ∧
        (add_link protocol domain re st href_attr).pushed = st.pushed ++ [u] ∧
        (add_link protocol domain re st href_attr).visited = st.visited.insert u ∧
        u ∈ (add_link protocol domain re st href_attr).visited := by
  refine ⟨?_, ?_, ?_, ?_, ?_⟩
  · rcases main_inv argc config robots_text responses with ⟨h, -, -⟩ | ⟨p, d, re, -, -, h⟩
    · rw [h]; exact List.nodup_nil
    · exact h.nodup
  · rcases main_inv argc config robots_text responses with ⟨-, h, -⟩ | ⟨p, d, re, -, -, h⟩
    · rw [h]; exact List.nodup_nil
    · have := h.nodup
      rw [h.queue] at this
      exact (List.nodup_append.1 this).1
  · rcases main_inv argc config robots_text responses with ⟨h1, h2, h3⟩ | ⟨p, d, re, -, -, h⟩
    · rw [h1, h2, h3]; rfl
    · exact h.queue
  · rcases main_inv argc config robots_text responses with ⟨h, -, -⟩ | ⟨p, d, re, -, -, h⟩
    · rw [h]; intro u hu; cases hu
    · exact h.marked
  · intro protocol domain re st href_attr
    rcases add_link_cases protocol domain re st href_attr with e | ⟨href, -, -, -, h3, e⟩
    · exact Or.inl e
    · right
      refine ⟨normalize protocol domain href, h3, ?_⟩
      rw [e]
      refine ⟨rfl, rfl, rfl, ?_⟩
      show _ ∈ List.insert _ _
      rw [List.mem_insert_iff]
      exact Or.inl rfl

/-- C5. In every run the first URL pushed is the seed, and every URL pushed after it is the
normal form of a reference found in a response and satisfies the scope predicate, the search
of the configured pattern. -/
theorem scope_invariant (argc : Nat) (config : Config) (robots_text : Str)
    (responses : List Response) :
    ((main argc config robots_text responses).crawl.pushed = [] ∨
      (main argc config robots_text responses).crawl.pushed.head? = some config.seed_url) ∧
    ∀ u ∈ (main argc config robots_text responses).crawl.pushed.tail,
      (∃ re, config.url_regex = some re ∧ re u = true) ∧
      ∃ protocol domain, seed_parts config.seed_url = some (protocol, domain) ∧
        ∃ r ∈ responses, ∃ href, some href ∈ r.hrefs ∧ u = normalize protocol domain href := by
  rcases main_inv argc config robots_text responses with ⟨h, -, -⟩ | ⟨p, d, re, hp, hre, h⟩
  · rw [h]
    exact ⟨Or.inl rfl, fun u hu => by cases hu⟩
  · refine ⟨Or.inr h.first, fun u hu => ⟨⟨re, hre, h.scope u hu⟩, p, d, hp, h.origin u hu⟩⟩

/-- Off the seed, the robots exclusions are respected: a page fetched by the main loop is the
seed or is not an entry of the set `block_urls` builds. -/
theorem robots_respected_off_seed (argc : Nat) (config : Config) (robots_text : Str)
    (responses : List Response) (u : Str)
    (hu : u ∈ (main argc config robots_text responses).crawl.fetched) :
    u = config.seed_url ∨
    ∀ protocol domain, seed_parts config.seed_url = some (protocol, domain) →
      u ∉ block_urls robots_text protocol domain [] := by
  rcases main_inv argc config robots_text responses with ⟨-, h, -⟩ | ⟨p, d, re, hp, -, h⟩
  · rw [h] at hu; cases hu
  · have hmem : u ∈ (main argc config robots_text responses).crawl.pushed := by
      rw [h.queue]; exact List.mem_append_left _ hu
    have hfirst := h.first
    have hrobots := h.robots
    generalize (main argc config robots_text responses).crawl.pushed = l at hmem hfirst hrobots
    cases l with
    | nil => cases hmem
    | cons a t =>
      simp only [List.head?_cons, Option.some.injEq] at hfirst
      subst hfirst
      rcases List.mem_cons.1 hmem with e | e
      · exact Or.inl e
      · right
        intro p2 d2 hp2
        rw [hp] at hp2
        cases hp2
        exact hrobots u e

/-- The link loop does push: with a pattern that matches everything, the page of Scenario A
adds the normal forms of `/b` and of `http://other.com/x` behind the seed. -/
theorem links_pushed :
    (main 2 { scenario_config with url_regex := some (fun _ => true) } []
      [scenario_page]).crawl.pushed =
      ["http://example.com/a".toList, "http://example.com".toList, "http://other.com".toList] := by
  decide

/-- C3 at the failing input. With the robots document of Scenario B and the excluded URL
itself as the seed, the seed is an entry of the set `block_urls` builds and the main loop
fetches it all the same. -/
theorem robots_seed_fetched :
    "http://example.com/private".toList ∈
      block_urls scenario_robots "http".toList "example.com".toList [] ∧
    seed_parts private_config.seed_url = some ("http".toList, "example.com".toList) ∧
    (main 2 private_config scenario_robots [scenario_page]).crawl.fetched =
      ["http://example.com/private".toList] := by
  decide

/-! ## Skipped responses, rejected configurations and Scenario A -/

/-- C9. An iteration whose response has a status other than 200, or status 200 and a
Content-Type without `text/html`, parses nothing, writes no file whatever the save toggles,
leaves the visited set and the push log as they were, and leaves the frontier without its
head, which is the URL it fetched; the loop goes on from that state with the next response. -/
theorem skipped_iteration (protocol domain : Str) (re : Str → Bool)
    (save_html save_text : Bool) (response : Response) (st : Crawl) (url : Str)
    (queue : List Str) (hq : st.to_visit = url :: queue)
    (hskip : response.status_code ≠ 200 ∨
      (response.status_code = 200 ∧ ¬ "text/html".toList <:+: response.content_type)) :
    (iteration protocol domain re save_html save_text response st).parsed = st.parsed ∧
    (iteration protocol domain re save_html save_text response st).files = st.files ∧
    (iteration protocol domain re save_html save_text response st).visited = st.visited ∧
    (iteration protocol domain re save_html save_text response st).pushed = st.pushed ∧
    (iteration protocol domain re save_html save_text response st).to_visit = queue ∧
    (iteration protocol domain re save_html save_text response st).fetched
      = st.fetched ++ [url] ∧
    ∀ responses, main_loop protocol domain re save_html save_text (response :: responses) st =
      main_loop protocol domain re save_html save_text responses
        { st with to_visit := queue, fetched := st.fetched ++ [url] } := by
  have hit : iteration protocol domain re save_html save_text response st =
      { st with to_visit := queue, fetched := st.fetched ++ [url] } := by
    unfold iteration
    rw [hq]
    simp only
    unfold loop_body
    simp only
    rcases hskip with h | ⟨h1, h2⟩
    · rw [if_pos h]
    · rw [if_neg (not_not.2 h1), if_pos ((find_zero_eq_none _ _).2 h2)]
  refine ⟨?_, ?_, ?_, ?_, ?_, ?_, ?_⟩
  · rw [hit]
  · rw [hit]
  · rw [hit]
  · rw [hit]
  · rw [hit]
  · rw [hit]
  · intro responses
    conv_lhs => unfold main_loop
    rw [hq]
    simp only
    rw [hit]

/-- C9 at a 404 answer to the first of two waiting URLs, both save toggles on. -/
theorem skipped_iteration_witness :
    (({ Crawl.empty with to_visit := ["http://example.com/a".toList, "http://example.com".toList] }
        : Crawl).to_visit = "http://example.com/a".toList :: ["http://example.com".toList]) ∧
    (iteration "http".toList "example.com".toList scenario_scope true true
      { scenario_page with status_code := 404 }
      { Crawl.empty with
        to_visit := ["http://example.com/a".toList, "http://example.com".toList] }).files
      = [] :=
  ⟨rfl, (skipped_iteration "http".toList "example.com".toList scenario_scope true true
    { scenario_page with status_code := 404 }
    { Crawl.empty with to_visit := ["http://example.com/a".toList, "http://example.com".toList] }
    "http://example.com/a".toList ["http://example.com".toList] rfl (Or.inl (by decide))).2.1⟩

/-- C4, as stated, fails: with both output toggles off and the seed of Scenario A, the run is
rejected with exit code 1 only after the request for robots.txt has been sent. -/
theorem no_output_counterexample :
    no_output_config.save_html.getD false = false ∧
    no_output_config.save_text.getD false = false ∧
    (main 2 no_output_config [] []).exit = Exit.code 1 ∧
    (main 2 no_output_config [] []).gets = ["http://example.com/robots.txt".toList] ∧
    (main 2 no_output_config [] []).gets ≠ [] := by
  decide

/-- C4, as the code has it. With both output toggles off or absent no page is ever requested
and nothing is pushed onto the frontier. The toggles are checked after the seed URL is parsed,
robots.txt is requested and the pattern is compiled: when these succeed, the run ends with
exit code 1 and the request for robots.txt is the one request it has sent. -/
theorem no_output_rejected (argc : Nat) (config : Config) (robots_text : Str)
    (responses : List Response)
    (hhtml : config.save_html.getD false = false)
    (htext : config.save_text.getD false = false) :
    (main argc config robots_text responses).crawl.fetched = [] ∧
    (main argc config robots_text responses).crawl.pushed = [] ∧
    (main argc config robots_text responses).exit ≠ Exit.running ∧
    (∀ protocol domain re, argc = 2 →
      seed_parts config.seed_url = some (protocol, domain) → config.url_regex = some re →
      (main argc config robots_text responses).exit = Exit.code 1 ∧
      (main argc config robots_text responses).gets =
        [protocol ++ "://".toList ++ domain ++ "/robots.txt".toList]) := by
  unfold main
  by_cases ha : argc ≠ 2
  · simp [ha, Crawl.empty]
  · simp only [ha, if_false]
    cases hp : seed_parts config.seed_url with
    | none => simp [Crawl.empty]
    | some pd =>
      obtain ⟨p, d⟩ := pd
      cases hre : config.url_regex with
      | none => simp [Crawl.empty]
      | some re =>
        simp [hhtml, htext, Crawl.empty]
        rintro protocol domain re2 - rfl rfl -
        rfl

/-- C4, the amended statement at the configuration of Scenario E. -/
theorem no_output_rejected_witness :
    (no_output_config.save_html.getD false = false) ∧
    (no_output_config.save_text.getD false = false) ∧
    (main 2 no_output_config scenario_robots [scenario_page]).crawl.fetched = [] :=
  ⟨by decide, by decide,
    (no_output_rejected 2 no_output_config scenario_robots [scenario_page]
      (by decide) (by decide)).1⟩

/-- C1, as stated, fails: after the page of Scenario A is processed the frontier is not the
one URL `http://example.com/b`, and that URL has not been pushed at all. -/
theorem scenario_a_counterexample :
    (main 2 scenario_config [] [scenario_page]).crawl.to_visit
      ≠ ["http://example.com/b".toList] ∧
    "http://example.com/b".toList ∉ (main 2 scenario_config [] [scenario_page]).crawl.pushed := by
  decide

/-- C1, as the code has it. In Scenario A the references `/b` and `/a` both normalize to
`http://example.com` and `http://other.com/x` to `http://other.com`, none of which matches
the scope pattern, and `#frag` is skipped: after the page is processed the frontier is empty,
and the seed is still the only URL pushed and the only one in the visited set. Whatever the
scope pattern, `http://example.com/b` is not pushed. -/
theorem scenario_a :
    seed_parts scenario_config.seed_url = some ("http".toList, "example.com".toList) ∧
    block_urls [] "http".toList "example.com".toList [] = [] ∧
    normalize "http".toList "example.com".toList "/b".toList = "http://example.com".toList ∧
    normalize "http".toList "example.com".toList "http://other.com/x".toList
      = "http://other.com".toList ∧
    normalize "http".toList "example.com".toList "/a".toList = "http://example.com".toList ∧
    scenario_scope "http://example.com".toList = false ∧
    scenario_scope "http://other.com".toList = false ∧
    (main 2 scenario_config [] [scenario_page]).crawl.to_visit = [] ∧
    (main 2 scenario_config [] [scenario_page]).crawl.pushed = ["http://example.com/a".toList] ∧
    (main 2 scenario_config [] [scenario_page]).crawl.visited = ["http://example.com/a".toList] ∧
    (main 2 scenario_config [] [scenario_page]).crawl.fetched = ["http://example.com/a".toList] ∧
    ∀ re : Str → Bool, "http://example.com/b".toList ∉
      (main 2 { scenario_config with url_regex := some re } [] [scenario_page]).crawl.pushed := by
  refine ⟨by decide, by decide, by decide, by decide, by decide, by decide, by decide,
    by decide, by decide, by decide, by decide, ?_⟩
  intro re hmem
  rcases main_inv 2 { scenario_config with url_regex := some re } [] [scenario_page] with
    ⟨h, -, -⟩ | ⟨p, d, re2, hp, -, h⟩
  · rw [h] at hmem; cases hmem
  · have hfirst := h.first
    have horigin := h.origin
    generalize (main 2 { scenario_config with url_regex := some re } [] [scenario_page]).crawl.pushed
      = l at hmem hfirst horigin
    have hpd : (p, d) = ("http".toList, "example.com".toList) := by
      have e : seed_parts scenario_config.seed_url
          = some ("http".toList, "example.com".toList) := by decide
      have hp2 : seed_parts scenario_config.seed_url = some (p, d) := hp
      rw [e] at hp2
      have hp := hp2
      exact (Option.some.inj hp).symm
    cases hpd
    cases l with
    | nil => cases hmem
    | cons a t =>
      simp only [List.head?_cons, Option.some.injEq] at hfirst
      subst hfirst
      rcases List.mem_cons.1 hmem with e | e
      · revert e; decide
      · obtain ⟨r, hr, href, hh, hu⟩ := horigin _ e
        rw [List.mem_singleton.1 hr] at hh
        have h4 : href = "/b".toList ∨ href = "#frag".toList ∨
            href = "http://other.com/x".toList ∨ href = "/a".toList := by
          simpa [scenario_page] using hh
        rcases h4 with rfl | rfl | rfl | rfl <;> (revert hu; decide)

/-! ## Parsing the robots document -/

theorem getlines_cons (c : Char) (cs : Str) :
    getlines (c :: cs) = (c :: cs).takeWhile (fun x => x != '\n')
      :: getlines (((c :: cs).dropWhile (fun x => x != '\n')).tail) := by
  induction cs generalizing c with
  | nil =>
    by_cases hc : c = '\n'
    · subst hc; rfl
    · simp [getlines, hc]
  | cons b cs ih =>
    by_cases hc : c = '\n'
    · subst hc
      simp [getlines]
    · have hc2 : (c != '\n') = true := by simp [hc]
      rw [List.takeWhile_cons, List.dropWhile_cons, if_pos hc2, if_pos hc2]
      conv_lhs => unfold getlines
      rw [if_neg hc, ih b]

theorem getline_getlines (s line rest : Str) (h : getline s = some (line, rest)) :
    getlines s = line :: getlines rest ∧ rest.length < s.length := by
  cases s with
  | nil => simp [getline] at h
  | cons c cs =>
    simp only [getline, Option.some.injEq, Prod.mk.injEq] at h
    obtain ⟨rfl, rfl⟩ := h
    refine ⟨getlines_cons c cs, ?_⟩
    have h1 : ((c :: cs).dropWhile (fun x => x != '\n')).length ≤ (c :: cs).length :=
      (List.dropWhile_sublist _).length_le
    cases hd : (c :: cs).dropWhile (fun x => x != '\n') with
    | nil => simp
    | cons a t =>
      rw [hd] at h1
      simp only [List.tail_cons]
      simp only [List.length_cons] at h1 ⊢
      omega

theorem getline_eq_none (s : Str) (h : getline s = none) : s = [] := by
  cases s with
  | nil => rfl
  | cons c cs => simp [getline] at h

theorem skip_loop_spec (fuel : Nat) (input : Str) (hf : input.length < fuel) :
    getlines (skip_loop fuel input) =
      ((getlines input).dropWhile (fun line => line != "User-agent: *".toList)).drop 1 ∧
    (skip_loop fuel input).length ≤ input.length := by
  induction fuel generalizing input with
  | zero => omega
  | succ fuel ih =>
    unfold skip_loop
    cases hg : getline input with
    | none =>
      have := getline_eq_none input hg
      subst this
      simp [getlines]
    | some lr =>
      obtain ⟨line, rest⟩ := lr
      obtain ⟨h1, h2⟩ := getline_getlines input line rest hg
      simp only
      by_cases hl : line = "User-agent: *".toList
      · rw [if_pos hl, h1, List.dropWhile_cons]
        have : (line != "User-agent: *".toList) = false := by
          rw [hl]; exact bne_self_eq_false _
        rw [this]
        simp
        omega
      · rw [if_neg hl, h1, List.dropWhile_cons]
        have : (line != "User-agent: *".toList) = true := bne_iff_ne.2 hl
        rw [this, if_pos rfl]
        obtain ⟨h3, h4⟩ := ih rest (by omega)
        exact ⟨h3, by omega⟩

theorem text_after_eq (pat s : Str) :
    text_after pat s = (findAux pat s 0).map (fun n => s.drop (n + pat.length)) := by
  induction s with
  | nil =>
    simp only [text_after, findAux]
    cases pat with
    | nil => simp
    | cons a pat => simp
  | cons c cs ih =>
    simp only [text_after, findAux, List.isPrefixOf_iff_prefix]
    by_cases h : pat <+: c :: cs
    · rw [if_pos h, if_pos h]
      simp
    · rw [if_neg h, if_neg h, findAux_shift pat cs (0 + 1), ih]
      cases findAux pat cs 0 with
      | none => rfl
      | some n =>
        simp only [Option.map_some', Option.some.injEq]
        rw [show n + 1 + pat.length = (n + pat.length) + 1 by omega]
        rfl

theorem stop_contains_iff (line : Str) :
    ((find line "User-agent: ".toList 0).isSome ∧ line.getLast? ≠ some '*') ↔
      stop_contains line = true := by
  unfold stop_contains
  rw [decide_eq_true_iff]
  have : (find line "User-agent: ".toList 0).isSome ↔ "User-agent: ".toList <:+: line := by
    rw [← not_iff_not, ← find_zero_eq_none]
    cases find line "User-agent: ".toList 0 <;> simp
  rw [this]

theorem mem_foldl_insert (l : List Str) (b : StrSet) (u : Str) :
    u ∈ l.foldl (fun acc x => acc.insert x) b ↔ u ∈ b ∨ u ∈ l := by
  induction l generalizing b with
  | nil => simp
  | cons a l ih =>
    rw [List.foldl_cons, ih, List.mem_insert_iff, List.mem_cons]
    tauto

theorem disallow_loop_spec (protocol domain : Str) (fuel : Nat) (input : Str)
    (blocked : StrSet) (hf : input.length < fuel) :
    disallow_loop protocol domain fuel input blocked =
      (((getlines input).takeWhile (fun line => !stop_contains line)).filterMap (fun line =>
        (text_after "Disallow: ".toList line).map
          (fun t => protocol ++ "://".toList ++ domain ++ t))).foldl
        (fun acc x => acc.insert x) blocked := by
  induction fuel generalizing input blocked with
  | zero => omega
  | succ fuel ih =>
    unfold disallow_loop
    cases hg : getline input with
    | none =>
      have := getline_eq_none input hg
      subst this
      simp [getlines]
    | some lr =>
      obtain ⟨line, rest⟩ := lr
      obtain ⟨h1, h2⟩ := getline_getlines input line rest hg
      simp only
      rw [h1, List.takeWhile_cons]
      by_cases hs : stop_contains line = true
      · rw [if_pos ((stop_contains_iff line).2 hs)]
        simp [hs]
      · rw [if_neg (fun hc => hs ((stop_contains_iff line).1 hc))]
        have hs2 : (!stop_contains line) = true := by simpa using hs
        rw [if_pos hs2, List.filterMap_cons, text_after_eq, ← find_zero]
        cases hfd : find line "Disallow: ".toList 0 with
        | none =>
          simp only [Option.map_none']
          exact ih rest blocked (by omega)
        | some pos =>
          simp only [Option.map_some', List.foldl_cons, substr]
          exact ih rest _ (by omega)

theorem block_urls_fold (input protocol domain : Str) (blocked : StrSet) :
    block_urls input protocol domain blocked =
      (block_entries stop_contains protocol domain input).foldl
        (fun acc x => acc.insert x) blocked := by
  unfold block_urls block_entries
  obtain ⟨h1, h2⟩ := skip_loop_spec (input.length + 1) input (by omega)
  rw [disallow_loop_spec protocol domain (input.length + 1) _ blocked (by omega), h1]

/-- C8, as the code has it. The set `block_urls` returns holds what it held before and, for
each line that contains `Disallow: ` and lies after the first line equal to `User-agent: *`
and before the first later line that contains `User-agent: ` anywhere and does not end in `*`,
the string `protocol://domain` followed by the text after the first `Disallow: ` of the line;
when no line equals `User-agent: *` the set is returned as it was. -/
theorem block_urls_eq_spec (input protocol domain : Str) (blocked : StrSet) :
    (∀ u, u ∈ block_urls input protocol domain blocked ↔
      u ∈ blocked ∨ u ∈ block_entries stop_contains protocol domain input) ∧
    (∀ u, u ∈ block_entries stop_contains protocol domain input ↔
      ∃ line ∈ (((getlines input).dropWhile
          (fun line => line != "User-agent: *".toList)).drop 1).takeWhile
          (fun line => !stop_contains line),
        ∃ t, text_after "Disallow: ".toList line = some t ∧
          u = protocol ++ "://".toList ++ domain ++ t) ∧
    ((∀ line ∈ getlines input, line ≠ "User-agent: *".toList) →
      block_urls input protocol domain blocked = blocked) := by
  refine ⟨fun u => ?_, fun u => ?_, fun h => ?_⟩
  · rw [block_urls_fold, mem_foldl_insert]
  · unfold block_entries
    simp only [List.mem_filterMap, Option.map_eq_some']
    constructor
    · rintro ⟨line, hl, t, ht, rfl⟩
      exact ⟨line, hl, t, ht, rfl⟩
    · rintro ⟨line, hl, t, ht, rfl⟩
      exact ⟨line, hl, t, ht, rfl⟩
  · rw [block_urls_fold]
    unfold block_entries
    have : (getlines input).dropWhile (fun line => line != "User-agent: *".toList) = [] := by
      rw [List.dropWhile_eq_nil_iff]
      intro line hl
      exact bne_iff_ne.2 (h line hl)
    rw [this]
    rfl

/-- C8, as stated, fails on both sides. After `User-agent: a*`, a block for an agent other
than `*`, the code goes on collecting, and adds `/x`, which the specified parsing leaves out.
At a comment that mentions `User-agent: ` the code stops, and misses `/b`, which the specified
parsing adds. -/
theorem block_urls_counterexample :
    ("http://example.com/x".toList ∈
        block_urls robots_starred_agent "http".toList "example.com".toList [] ∧
      "http://example.com/x".toList ∉
        block_entries stop_claimed "http".toList "example.com".toList robots_starred_agent) ∧
    ("http://example.com/b".toList ∈
        block_entries stop_claimed "http".toList "example.com".toList robots_comment ∧
      "http://example.com/b".toList ∉
        block_urls robots_comment "http".toList "example.com".toList []) := by
  decide

end SimpleCrawler
